import Mathlib

/-!
Verification of the Data-Cleaner-Tool repository's tabular cleaning engine
against its design specification.  The frontend (src/frontend/src/App.js) is
embedded directly; the backend engine (parser, cleaning pipeline, statistics,
merge, file store) is not part of the repository's files, so those components
are modelled from the specification's words, as marked on each definition.
-/

/-- A single value of a record: the canonical `missing` marker, a string, a
number (modelled as a rational), or a boolean. -/
inductive Cell where
  | missing : Cell
  | str : String → Cell
  | num : ℚ → Cell
  | boolean : Bool → Cell
deriving DecidableEq, Repr

/-- Semantic column types assigned by type inference. -/
inductive ColType where
  | integer | float | booleanT | text | date
deriving DecidableEq, Repr

/-- Column metadata: a name and an inferred semantic type. -/
structure Column where
  name : String
  inferred_type : ColType
deriving DecidableEq, Repr

/-- One row of a table: a mapping from column name to cell, represented as an
association list whose keys are the table's column names. -/
abbrev Record := List (String × Cell)

/-- A table: ordered column metadata plus ordered rows. -/
structure Table where
  cols : List Column
  rows : List Record
deriving DecidableEq, Repr

/-- The column-name list of a table. -/
def colNames (t : Table) : List String := t.cols.map (fun c => c.name)

/-- Read the cell of a record at a column name; an absent key reads as the
canonical `missing` marker. -/
def lookupCell (r : Record) (n : String) : Cell := (r.lookup n).getD Cell.missing

/-- Well-formedness of a table: every record's key list is exactly the
table's column-name list. -/
def TableWF (t : Table) : Prop :=
  ∀ r ∈ t.rows, r.map (fun p => p.1) = colNames t

/-- Per-column numeric summary: `min`, `max`, arithmetic `mean`, and the
population variance (`std` is the square root of `variance`). -/
structure NumStat where
  min : ℚ
  max : ℚ
  mean : ℚ
  variance : ℚ
deriving DecidableEq, Repr

/-- Descriptive statistics of a table. -/
structure Statistics where
  rows : ℕ
  columns : ℕ
  missing_values : List (String × ℕ)
  numeric_stats : List (String × NumStat)
deriving DecidableEq, Repr

/-- Number of rows whose cell at column `n` is not `missing`. -/
def nonMissingCount (t : Table) (n : String) : ℕ :=
  t.rows.countP (fun r => lookupCell r n ≠ Cell.missing)

/-- Number of rows whose cell at column `n` is `missing`. -/
def missingCount (t : Table) (n : String) : ℕ :=
  t.rows.countP (fun r => lookupCell r n = Cell.missing)

/-- The numeric value of a cell, when it carries one. -/
def cellNum? : Cell → Option ℚ
  | Cell.num q => some q
  | _ => none

/-- The numeric values present in column `n`, in row order. -/
def numVals (t : Table) (n : String) : List ℚ :=
  t.rows.filterMap (fun r => cellNum? (lookupCell r n))

/-- Whether a column type counts as numeric for statistics. -/
def isNumericType : ColType → Bool
  | ColType.integer => true
  | ColType.float => true
  | _ => false

/-- Summary of a list of numeric values: min, max, arithmetic mean, and
population variance (sum of squared deviations divided by N, not N−1). -/
def numStatOf (vals : List ℚ) : NumStat :=
  let n : ℚ := vals.length
  let mean : ℚ := vals.sum / n
  { min := vals.foldl min (vals.headD 0)
    max := vals.foldl max (vals.headD 0)
    mean := mean
    variance := (vals.map (fun v => (v - mean) ^ 2)).sum / n }

/-- Modelled from the spec: the StatisticsComputer component is not among the
repository's files.  `compute(Table) -> Statistics`: `rows`/`columns` are
simple counts, `missing_values[c]` counts `missing` cells in column `c`, and
each integer- or float-typed column with at least one non-missing value gets a
`numeric_stats` entry (a column with zero non-missing values is omitted rather
than given a sentinel). -/
def compute (t : Table) : Statistics :=
  { rows := t.rows.length
    columns := t.cols.length
    missing_values := t.cols.map (fun c => (c.name, missingCount t c.name))
    numeric_stats :=
      (t.cols.filter
        (fun c => isNumericType c.inferred_type && decide (0 < nonMissingCount t c.name))).map
        (fun c => (c.name, numStatOf (numVals t c.name))) }

/-! ### Frontend data model (src/frontend/src/App.js) -/

/-- The `file_info` object of an upload response. -/
structure FileInfo where
  id : String
  filename : String
  file_type : String
  size : ℕ
deriving DecidableEq, Repr

/-- An entry of the `uploadedFiles` list: file info plus the original
preview rows and statistics returned at upload time. -/
structure UploadedFile where
  file_info : FileInfo
  preview_data : List Record
  statistics : Statistics
deriving DecidableEq, Repr

/-- The React component state of App.js that the cleaning workflow touches. -/
structure AppState where
  uploadedFiles : List UploadedFile
  selectedFile : Option UploadedFile
  originalData : Option (List Record)
  cleanedData : Option (List Record)
  statistics : Option Statistics
  cleanedStatistics : Option Statistics
  cleaningComplete : Bool
deriving DecidableEq, Repr

/-- Embeds `deleteFile` (App.js lines 170-186): filter the deleted id out of
`uploadedFiles`, and clear selection, previews, statistics and the
completion flag exactly when the deleted id is the selected file's id. -/
def deleteFile (s : AppState) (fid : String) : AppState :=
  let files := s.uploadedFiles.filter (fun f => f.file_info.id ≠ fid)
  if s.selectedFile.any (fun f => f.file_info.id = fid) then
    { uploadedFiles := files, selectedFile := none, originalData := none,
      cleanedData := none, statistics := none, cleanedStatistics := none,
      cleaningComplete := false }
  else
    { s with uploadedFiles := files }

/-- Embeds `displayData` of `renderDataTable` (App.js line 233):
the full data when expanded, otherwise `data.slice(0, 5)`. -/
def previewRows (data : List Record) (isExpanded : Bool) : List Record :=
  if isExpanded then data else data.take 5

/-- Embeds `hasMoreRows` (App.js line 234): the expand control renders
exactly when this is true. -/
def hasMoreRows (data : List Record) : Bool := decide (5 < data.length)

/-- The `handle_missing` select of App.js offers exactly the values
`none`, `drop` and `fill`. -/
inductive HandleMissing where
  | none | drop | fill
deriving DecidableEq, Repr

/-- One find-and-replace rule: an optional target column (`none` = all
columns), the text to find, the replacement, and whether substring matching
(as opposed to exact-cell matching) is used. -/
structure FindReplaceRule where
  column : Option String
  find : String
  replace : String
  substring : Bool
deriving DecidableEq, Repr

/-- The `cleaningOptions` configuration struct (App.js lines 45-54): exactly
these recognized fields and no others. -/
structure CleaningOptions where
  remove_duplicates : Bool
  handle_missing : HandleMissing
  fill_value : String
  column_renames : List (String × String)
  find_replace : List FindReplaceRule
  trim_whitespace : Bool
  data_type_conversions : List (String × ColType)
  merge_files : List Table
deriving Repr

/-- The initial `cleaningOptions` value of App.js lines 45-54: every stage
disabled, empty mappings and list. -/
def defaultCleaningOptions : CleaningOptions :=
  { remove_duplicates := false
    handle_missing := HandleMissing.none
    fill_value := ""
    column_renames := []
    find_replace := []
    trim_whitespace := false
    data_type_conversions := []
    merge_files := [] }

/-- Total of the per-column missing-value counts, as summed by
`Object.values(statistics.missing_values).reduce((a, b) => a + b, 0)`. -/
def totalMissing (s : Statistics) : ℕ := (s.missing_values.map (fun p => p.2)).sum

/-- JavaScript `Math.round`: round half toward positive infinity. -/
def jsRound (q : ℚ) : ℤ := ⌊q + 1 / 2⌋

/-- Embeds the Data Quality expression of the original-statistics card
(App.js lines 591-597). -/
def dataQualityOriginal (s : Statistics) : ℤ :=
  if 0 < s.rows ∧ 0 < s.columns then
    jsRound ((1 - (totalMissing s : ℚ) / ((s.rows : ℚ) * (s.columns : ℚ))) * 100)
  else 0

/-- Embeds the Data Quality expression of the cleaned-statistics card
(App.js lines 680-687). -/
def dataQualityCleaned (s : Statistics) : ℤ :=
  if 0 < s.rows ∧ 0 < s.columns then
    jsRound ((1 - (totalMissing s : ℚ) / ((s.rows : ℚ) * (s.columns : ℚ))) * 100)
  else 0

/-- Embeds the request URL built by `downloadFile` (App.js line 140); the
`isOriginal` argument is accepted but does not occur in the URL. -/
def downloadRequest (fileId format : String) (isOriginal : Bool) : String :=
  "/api/download/" ++ fileId ++ "?format=" ++ format

/-- Embeds the saved-file name built by `downloadFile` (App.js line 148). -/
def downloadName (format : String) (isOriginal : Bool) : String :=
  (if isOriginal then "original" else "cleaned") ++ "_data." ++ format

/-! ### Cleaning pipeline, modelled from the specification -/

/-- Characters treated as whitespace by trimming. -/
def isWS (ch : Char) : Bool := ch = ' ' || ch = '\t' || ch = '\n' || ch = '\r'

/-- Strip leading and trailing whitespace from a character list. -/
def trimChars (l : List Char) : List Char :=
  (l.dropWhile isWS).rdropWhile isWS

/-- Strip leading and trailing whitespace from a string. -/
def trimStr (s : String) : String := String.mk (trimChars s.data)

/-- Trim a cell: string cells are trimmed, non-string cells are untouched. -/
def trimCell : Cell → Cell
  | Cell.str s => Cell.str (trimStr s)
  | c => c

/-- Trim every cell of a record. -/
def trimRecord (r : Record) : Record := r.map (fun p => (p.1, trimCell p.2))

/-- Modelled from the spec: stage 2 of the CleaningPipeline (no pipeline code
is among the repository's files).  Strip leading/trailing whitespace from
every string-typed cell; non-string cells untouched. -/
def trimTable (t : Table) : Table := { t with rows := t.rows.map trimRecord }

/-- A string that is the canonical empty marker becomes `missing`;
any other string stays a string cell. -/
def normEmpty (s : String) : Cell := if s = "" then Cell.missing else Cell.str s

/-- Apply one find/replace rule to the cell of column `n`. -/
def frCell (rule : FindReplaceRule) (n : String) (c : Cell) : Cell :=
  match c with
  | Cell.str s =>
    if rule.column = none ∨ rule.column = some n then
      if rule.substring then normEmpty (s.replace rule.find rule.replace)
      else if s = rule.find then normEmpty rule.replace else Cell.str s
    else Cell.str s
  | c => c

/-- Modelled from the spec: stage 3 of the CleaningPipeline.  Apply each rule
in order to matching cells (exact or substring match per rule scope); a rule
targets one column or all columns; a replacement equal to the canonical empty
marker becomes `missing`. -/
def applyFindReplace (rules : List FindReplaceRule) (t : Table) : Table :=
  rules.foldl
    (fun t rule =>
      { t with rows := t.rows.map (fun r => r.map (fun p => (p.1, frCell rule p.1 p.2))) })
    t

/-- Parse a nonnegative decimal numeral, with an optional fractional part. -/
def parseNonnegRat? (s : String) : Option ℚ :=
  match s.splitOn "." with
  | [a] => (a.toNat?).map (fun n => (n : ℚ))
  | [a, b] =>
    match a.toNat?, b.toNat? with
    | some na, some nb => some ((na : ℚ) + (nb : ℚ) / (10 ^ b.length))
    | _, _ => none
  | _ => none

/-- Parse a decimal numeral with an optional sign. -/
def parseRat? (s : String) : Option ℚ :=
  if s.startsWith "-" then (parseNonnegRat? (s.drop 1)).map Neg.neg
  else parseNonnegRat? s

/-- Render a cell as text. -/
def cellText : Cell → String
  | Cell.missing => ""
  | Cell.str s => s
  | Cell.num q => if q.den = 1 then toString q.num else toString q.num ++ "/" ++ toString q.den
  | Cell.boolean b => if b then "true" else "false"

/-- A simple date shape: three dash-separated numeric fields. -/
def isDateString (s : String) : Bool :=
  match s.splitOn "-" with
  | [a, b, c] => a.toNat?.isSome && b.toNat?.isSome && c.toNat?.isSome
  | _ => false

/-- Attempt to recast one non-missing cell to a target type; `none` is a
per-cell soft conversion failure. -/
def convertCell (ct : ColType) (c : Cell) : Option Cell :=
  match ct, c with
  | _, Cell.missing => some Cell.missing
  | ColType.integer, Cell.num q => if q.den = 1 then some (Cell.num q) else none
  | ColType.integer, Cell.str s => (s.toInt?).map (fun n => Cell.num (n : ℚ))
  | ColType.integer, Cell.boolean b => some (Cell.num (if b then 1 else 0))
  | ColType.float, Cell.num q => some (Cell.num q)
  | ColType.float, Cell.str s => (parseRat? s).map Cell.num
  | ColType.float, Cell.boolean b => some (Cell.num (if b then 1 else 0))
  | ColType.booleanT, Cell.boolean b => some (Cell.boolean b)
  | ColType.booleanT, Cell.str s =>
    if s = "true" then some (Cell.boolean true)
    else if s = "false" then some (Cell.boolean false) else none
  | ColType.booleanT, Cell.num q =>
    if q = 1 then some (Cell.boolean true)
    else if q = 0 then some (Cell.boolean false) else none
  | ColType.text, c => some (Cell.str (cellText c))
  | ColType.date, Cell.str s => if isDateString s then some (Cell.str s) else none
  | ColType.date, _ => none

/-- Modelled from the spec: stage 4 of the CleaningPipeline.  For each column
named in the conversion mapping, attempt to recast every non-missing cell to
the target type; a cell that fails conversion keeps its original
representation (a soft failure, never a pipeline abort). -/
def applyConversions (m : List (String × ColType)) (t : Table) : Table :=
  { cols := t.cols.map (fun c =>
      match m.lookup c.name with
      | some ct => { c with inferred_type := ct }
      | none => c)
    rows := t.rows.map (fun r => r.map (fun p =>
      match m.lookup p.1 with
      | some ct => (p.1, (convertCell ct p.2).getD p.2)
      | none => p)) }

/-- Replace a `missing` cell by the literal fill string. -/
def fillCell (v : String) : Cell → Cell
  | Cell.missing => Cell.str v
  | c => c

/-- Modelled from the spec: stage 5 of the CleaningPipeline, `fill` mode.
Replace every `missing` cell with the literal `fill_value` string across all
columns. -/
def fillMissing (v : String) (t : Table) : Table :=
  { t with rows := t.rows.map (fun r => r.map (fun p => (p.1, fillCell v p.2))) }

/-- Modelled from the spec: stage 5 of the CleaningPipeline, `drop` mode.
Remove every row containing at least one `missing` cell. -/
def dropMissing (t : Table) : Table :=
  { t with rows := t.rows.filter (fun r => r.all (fun p => p.2 ≠ Cell.missing)) }

/-- Keep-first deduplication: keep each row's first occurrence, dropping the
later exact duplicates, preserving the relative order of survivors. -/
def dedupRows : List Record → List Record
  | [] => []
  | r :: rs => r :: dedupRows (rs.filter (fun x => x ≠ r))
termination_by l => l.length
decreasing_by
  simp only [List.length_cons]
  exact Nat.lt_succ_of_le (List.length_filter_le _ _)

/-- Modelled from the spec: stage 6 of the CleaningPipeline.  Remove rows
that are exact duplicates of an earlier-surviving row. -/
def dedupTable (t : Table) : Table := { t with rows := dedupRows t.rows }

/-- The new name of a column under a rename mapping (unmapped names are
kept). -/
def renamed (m : List (String × String)) (n : String) : String :=
  (m.lookup n).getD n

/-- Modelled from the spec: stage 7 of the CleaningPipeline.  Apply
`column_renames` last, producing the final externally visible column names. -/
def renameCols (m : List (String × String)) (t : Table) : Table :=
  { cols := t.cols.map (fun c => { c with name := renamed m c.name })
    rows := t.rows.map (fun r => r.map (fun p => (renamed m p.1, p.2))) }

/-- The merged column list: the union of all input column lists, in
first-seen order across the input list. -/
def unionCols (ts : List Table) : List Column :=
  ts.foldl
    (fun acc t => acc ++ t.cols.filter (fun c => ¬ acc.any (fun d => d.name = c.name)))
    []

/-- A source row extended to the merged column list: a column the source
table lacks reads as `missing`. -/
def extendRecord (cols : List Column) (src : Table) (r : Record) : Record :=
  cols.map (fun c =>
    (c.name, if (colNames src).contains c.name then lookupCell r c.name else Cell.missing))

/-- Modelled from the spec: the MergeCoordinator component is not among the
repository's files.  `merge(ordered list of Table) -> Table`: an outer union
on column name (case-sensitive), columns in first-seen order, rows the
concatenation of each input's rows in input-list order, and a cell of a row
whose source table lacks that column is `missing`. -/
def merge (ts : List Table) : Table :=
  let cols := unionCols ts
  { cols := cols
    rows := ts.flatMap (fun t => t.rows.map (extendRecord cols t)) }

/-- Modelled from the spec: the CleaningPipeline component is not among the
repository's files.  `clean(Table, CleaningOptions) -> Table`, stages in the
fixed order merge, trim, find/replace, conversions, missing-value handling,
deduplication, rename; disabled stages are skipped. -/
def clean (t : Table) (o : CleaningOptions) : Table :=
  let t1 := if o.merge_files.isEmpty then t else merge (t :: o.merge_files)
  let t2 := if o.trim_whitespace then trimTable t1 else t1
  let t3 := applyFindReplace o.find_replace t2
  let t4 := applyConversions o.data_type_conversions t3
  let t5 :=
    match o.handle_missing with
    | HandleMissing.none => t4
    | HandleMissing.drop => dropMissing t4
    | HandleMissing.fill => fillMissing o.fill_value t4
  let t6 := if o.remove_duplicates then dedupTable t5 else t5
  renameCols o.column_renames t6

/-! ### File store and the Clean endpoint, modelled from the specification -/

/-- A stored file: the immutable original table and the latest cleaned
artifact, when one exists. -/
structure StoredFile where
  original : Table
  cleaned : Option Table
deriving DecidableEq, Repr

/-- The id-keyed store of uploaded files. -/
abbrev Store := List (String × StoredFile)

/-- The preview size constant K. -/
def previewK : ℕ := 5

/-- The payload returned by the Clean operation. -/
structure CleanResponse where
  preview_data : List Record
  statistics : Statistics
deriving DecidableEq, Repr

/-- Replace the stored file at an id, leaving other entries unchanged. -/
def storeUpdate (store : Store) (fid : String) (sf : StoredFile) : Store :=
  store.map (fun p => if p.1 = fid then (p.1, sf) else p)

/-- Modelled from the spec: the Clean endpoint's backend is not among the
repository's files.  Look up the stored original for the id (`none` is
`NotFoundError`), run the pipeline on it, record the result as the latest
cleaned artifact without touching the original, and return the first-K-rows
preview and the statistics of the cleaned table. -/
def cleanEndpoint (store : Store) (fid : String) (o : CleaningOptions) :
    Option (Store × CleanResponse) :=
  match store.lookup fid with
  | none => none
  | some sf =>
    let ct := clean sf.original o
    some (storeUpdate store fid { sf with cleaned := some ct },
      { preview_data := ct.rows.take previewK, statistics := compute ct })

/-- Embeds the state update of `cleanData` (App.js lines 115-117): the
response's preview and statistics land in the cleaned slots and the
completion flag is set; nothing else is written. -/
def applyCleanResult (s : AppState) (resp : CleanResponse) : AppState :=
  { s with cleanedData := some resp.preview_data,
           cleanedStatistics := some resp.statistics,
           cleaningComplete := true }



/-! ### Concrete example data used by the claims -/

/-- Options enabling only fill-mode missing-value handling. -/
def fillOpts (v : String) : CleaningOptions :=
  { defaultCleaningOptions with handle_missing := HandleMissing.fill, fill_value := v }

/-- Options enabling only whitespace trimming and duplicate removal. -/
def trimDedupOpts : CleaningOptions :=
  { defaultCleaningOptions with trim_whitespace := true, remove_duplicates := true }

/-- A one-column, one-row table whose only cell is missing. -/
def exFillTable : Table :=
  { cols := [{ name := "a", inferred_type := ColType.text }]
    rows := [[("a", Cell.missing)]] }

/-- A one-column numeric table with values 1, 2, 3 and one missing cell. -/
def exStatsTable : Table :=
  { cols := [{ name := "x", inferred_type := ColType.integer }]
    rows := [[("x", Cell.num 1)], [("x", Cell.num 2)], [("x", Cell.num 3)],
             [("x", Cell.missing)]] }

/-- A table with columns A and B and one row. -/
def exTableAB : Table :=
  { cols := [{ name := "A", inferred_type := ColType.text },
             { name := "B", inferred_type := ColType.text }]
    rows := [[("A", Cell.str "a1"), ("B", Cell.str "b1")]] }

/-- A table with columns B and C and one row. -/
def exTableBC : Table :=
  { cols := [{ name := "B", inferred_type := ColType.text },
             { name := "C", inferred_type := ColType.text }]
    rows := [[("B", Cell.str "b2"), ("C", Cell.str "c2")]] }

/-- A one-file store holding `exFillTable` under id "f1". -/
def exStore : Store := [("f1", { original := exFillTable, cleaned := none })]

/-! ### Supporting lemmas -/

theorem lookup_cons {β : Type} (k g : String) (v : β) (l : List (String × β)) :
    ((k, v) :: l).lookup g = if g = k then some v else l.lookup g := by
  cases h : g == k
  · have : ¬(g = k) := by simpa using h
    simp [List.lookup, h, this]
  · have : g = k := by simpa using h
    simp [List.lookup, h, this]

theorem lookup_map_value (r : Record) (f : Cell → Cell) (n : String) :
    (r.map (fun p => (p.1, f p.2))).lookup n = (r.lookup n).map f := by
  induction r with
  | nil => rfl
  | cons p r ih =>
    obtain ⟨k, v⟩ := p
    cases h : n == k <;> simp [List.lookup, h, ih]

theorem lookup_some_of_mem_keys (r : Record) (n : String)
    (h : n ∈ r.map (fun p => p.1)) : ∃ x, r.lookup n = some x := by
  induction r with
  | nil => simp at h
  | cons p r ih =>
    obtain ⟨k, v⟩ := p
    cases hk : n == k
    · have : n ∈ r.map (fun p => p.1) := by
        simp only [List.map_cons, List.mem_cons] at h
        rcases h with h | h
        · exact absurd h (by simpa using hk)
        · exact h
      obtain ⟨x, hx⟩ := ih this
      exact ⟨x, by simp [List.lookup, hk, hx]⟩
    · exact ⟨v, by simp [List.lookup, hk]⟩

theorem fillCell_ne_missing (v : String) (c : Cell) : fillCell v c ≠ Cell.missing := by
  cases c <;> simp [fillCell]

theorem lookup_map_key {α : Type} (l : List Column) (f : Column → α) (n : String) :
    (l.map (fun c => (c.name, f c))).lookup n
      = (l.find? (fun c => c.name = n)).map f := by
  induction l with
  | nil => rfl
  | cons c l ih =>
    rw [List.map_cons, lookup_cons]
    by_cases h : n = c.name
    · have hd : decide (c.name = n) = true := by simp [h]
      simp [List.find?, hd, h]
    · have hd : decide (c.name = n) = false := by
        simpa using fun hh => h hh.symm
      simp [List.find?, hd, h, ih]

theorem find?_of_mem_names (l : List Column) (n : String)
    (h : n ∈ l.map (fun c => c.name)) :
    ∃ d, l.find? (fun c => c.name = n) = some d ∧ d.name = n := by
  induction l with
  | nil => simp at h
  | cons c l ih =>
    by_cases hc : c.name = n
    · exact ⟨c, by simp [List.find?, hc], hc⟩
    · have : n ∈ l.map (fun c => c.name) := by
        simp only [List.map_cons, List.mem_cons] at h
        exact h.resolve_left (fun hh => hc hh.symm)
      obtain ⟨d, hd, hdn⟩ := ih this
      have : decide (c.name = n) = false := by simpa using hc
      exact ⟨d, by simp [List.find?, this, hd], hdn⟩

theorem lookup_storeUpdate (store : Store) (fid : String) (sf : StoredFile)
    (g : String) :
    (storeUpdate store fid sf).lookup g
      = if g = fid then (store.lookup fid).map (fun _ => sf) else store.lookup g := by
  induction store with
  | nil => simp [storeUpdate, List.lookup]
  | cons p store ih =>
    obtain ⟨k, v⟩ := p
    have hcons : storeUpdate ((k, v) :: store) fid sf
        = (if k = fid then (k, sf) else (k, v)) :: storeUpdate store fid sf := by
      simp only [storeUpdate, List.map_cons]
    rw [hcons]
    by_cases hk : k = fid
    · subst hk
      by_cases hg : g = k
      · subst hg
        simp [lookup_cons]
      · simp [lookup_cons, hg, ih]
    · have hfk : ¬fid = k := fun h => hk h.symm
      by_cases hg : g = k
      · subst hg
        simp [lookup_cons, hk, hfk]
      · by_cases hgf : g = fid
        · subst hgf
          simp [lookup_cons, hk, hg, hfk, ih]
        · simp [lookup_cons, hk, hg, hgf, ih]

theorem map_eq_self_of {α : Type} (l : List α) (f : α → α) (h : ∀ x ∈ l, f x = x) :
    l.map f = l := by
  induction l with
  | nil => rfl
  | cons a l ih =>
    simp only [List.map_cons]
    rw [h a (by simp), ih (fun x hx => h x (by simp [hx]))]


theorem applyFindReplace_nil (t : Table) : applyFindReplace [] t = t := rfl

theorem applyConversions_nil (t : Table) : applyConversions [] t = t := by
  have h1 : t.cols.map (fun c =>
      match List.lookup c.name ([] : List (String × ColType)) with
      | some ct => { c with inferred_type := ct }
      | none => c) = t.cols :=
    map_eq_self_of _ _ (fun c _ => rfl)
  have h2 : t.rows.map (fun r => r.map (fun p =>
      match List.lookup p.1 ([] : List (String × ColType)) with
      | some ct => (p.1, (convertCell ct p.2).getD p.2)
      | none => p)) = t.rows :=
    map_eq_self_of _ _ (fun r _ => map_eq_self_of _ _ (fun p _ => rfl))
  simp only [applyConversions, h1, h2]

theorem renameCols_nil (t : Table) : renameCols [] t = t := by
  have h1 : t.cols.map (fun c => { c with name := renamed [] c.name }) = t.cols :=
    map_eq_self_of _ _ (fun c _ => rfl)
  have h2 : t.rows.map (fun r => r.map (fun p => (renamed [] p.1, p.2))) = t.rows :=
    map_eq_self_of _ _ (fun r _ => map_eq_self_of _ _ (fun p _ => rfl))
  simp only [renameCols, h1, h2]

theorem clean_fillOpts (t : Table) (v : String) :
    clean t (fillOpts v) = fillMissing v t := by
  simp only [clean, fillOpts, defaultCleaningOptions, List.isEmpty_nil, if_true, if_false,
    Bool.false_eq_true, applyFindReplace_nil, applyConversions_nil, renameCols_nil]

theorem clean_trimDedupOpts (t : Table) :
    clean t trimDedupOpts = dedupTable (trimTable t) := by
  simp only [clean, trimDedupOpts, defaultCleaningOptions, List.isEmpty_nil, if_true,
    applyFindReplace_nil, applyConversions_nil, renameCols_nil]

/-! ### Claims about the frontend -/

/-- C7: for every dataset view, the collapsed preview is exactly the first
5 rows in order (all rows when there are at most 5), the expanded view is
all rows, and the expand control appears exactly when there are more than
5 rows. -/
theorem preview_first_five : ∀ data : List Record,
    previewRows data false = data.take 5
    ∧ (previewRows data false).length = min 5 data.length
    ∧ (∀ i : ℕ, i < 5 → (previewRows data false)[i]? = data[i]?)
    ∧ previewRows data true = data
    ∧ (hasMoreRows data = true ↔ 5 < data.length)
    ∧ (data.length ≤ 5 → previewRows data false = data ∧ hasMoreRows data = false) := by
  intro data
  refine ⟨rfl, by simp [previewRows], ?_, rfl, by simp [hasMoreRows], ?_⟩
  · intro i hi
    simp [previewRows, List.getElem?_take, hi]
  · intro h
    constructor
    · simp [previewRows, List.take_of_length_le h]
    · simp [hasMoreRows]
      omega

/-- C8: the `cleaningOptions` configuration has exactly the recognized
fields (a value is determined by them), `handle_missing` ranges over exactly
`none`, `drop`, `fill`, and the default configuration disables every stage:
no deduplication, keep missing values, empty fill value, no renames, no
find/replace rules, no trimming, no conversions, no merge list. -/
theorem cleaningOptions_default_spec :
    (defaultCleaningOptions.remove_duplicates = false
      ∧ defaultCleaningOptions.handle_missing = HandleMissing.none
      ∧ defaultCleaningOptions.fill_value = ""
      ∧ defaultCleaningOptions.column_renames = []
      ∧ defaultCleaningOptions.find_replace = []
      ∧ defaultCleaningOptions.trim_whitespace = false
      ∧ defaultCleaningOptions.data_type_conversions = []
      ∧ defaultCleaningOptions.merge_files = [])
    ∧ (∀ o : CleaningOptions,
        o = { remove_duplicates := o.remove_duplicates
              handle_missing := o.handle_missing
              fill_value := o.fill_value
              column_renames := o.column_renames
              find_replace := o.find_replace
              trim_whitespace := o.trim_whitespace
              data_type_conversions := o.data_type_conversions
              merge_files := o.merge_files })
    ∧ (∀ h : HandleMissing,
        h = HandleMissing.none ∨ h = HandleMissing.drop ∨ h = HandleMissing.fill) := by
  refine ⟨⟨rfl, rfl, rfl, rfl, rfl, rfl, rfl, rfl⟩, fun o => rfl, fun h => ?_⟩
  cases h
  · exact Or.inl rfl
  · exact Or.inr (Or.inl rfl)
  · exact Or.inr (Or.inr rfl)

/-- C9: the Data Quality percentage is the rounded value of
`(1 − totalMissing/(rows·columns))·100` when both counts are positive and 0
otherwise (the division is guarded), the cleaned-statistics card applies the
identical formula, and on a sample with 3 missing cells out of 8 the value
is 63. -/
theorem dataQuality_spec :
    (∀ s : Statistics, dataQualityOriginal s =
        if 0 < s.rows ∧ 0 < s.columns then
          jsRound ((1 - (totalMissing s : ℚ) / ((s.rows : ℚ) * (s.columns : ℚ))) * 100)
        else 0)
    ∧ (∀ s : Statistics, dataQualityCleaned s = dataQualityOriginal s)
    ∧ (∀ s : Statistics, s.rows = 0 ∨ s.columns = 0 → dataQualityOriginal s = 0)
    ∧ dataQualityOriginal
        { rows := 4, columns := 2, missing_values := [("a", 1), ("b", 2)],
          numeric_stats := [] } = 63 := by
  refine ⟨fun s => rfl, fun s => rfl, ?_, ?_⟩
  · intro s h
    have : ¬(0 < s.rows ∧ 0 < s.columns) := by omega
    simp [dataQualityOriginal, this]
  · have h1 : ((1 : ℚ) - (3 : ℚ) / ((4 : ℚ) * (2 : ℚ))) * 100 = 125 / 2 := by norm_num
    have h2 : jsRound (125 / 2) = 63 := by
      have : (125 : ℚ) / 2 + 1 / 2 = 63 := by norm_num
      rw [jsRound, this]
      norm_num
    simp only [dataQualityOriginal, totalMissing]
    norm_num [h2, jsRound]

/-- C10: deleting a file id filters exactly the entries with that id out of
the uploaded-files list; the selection, the original and cleaned previews
and both statistics views are cleared exactly when the deleted id is the
currently selected file's id, and are left unchanged otherwise. -/
theorem deleteFile_spec : ∀ (s : AppState) (fid : String),
    (deleteFile s fid).uploadedFiles = s.uploadedFiles.filter (fun f => f.file_info.id ≠ fid)
    ∧ (∀ f, f ∈ (deleteFile s fid).uploadedFiles ↔ f ∈ s.uploadedFiles ∧ f.file_info.id ≠ fid)
    ∧ (s.selectedFile.any (fun f => f.file_info.id = fid) = true →
        (deleteFile s fid).selectedFile = none
        ∧ (deleteFile s fid).originalData = none
        ∧ (deleteFile s fid).cleanedData = none
        ∧ (deleteFile s fid).statistics = none
        ∧ (deleteFile s fid).cleanedStatistics = none
        ∧ (deleteFile s fid).cleaningComplete = false)
    ∧ (s.selectedFile.any (fun f => f.file_info.id = fid) = false →
        (deleteFile s fid).selectedFile = s.selectedFile
        ∧ (deleteFile s fid).originalData = s.originalData
        ∧ (deleteFile s fid).cleanedData = s.cleanedData
        ∧ (deleteFile s fid).statistics = s.statistics
        ∧ (deleteFile s fid).cleanedStatistics = s.cleanedStatistics
        ∧ (deleteFile s fid).cleaningComplete = s.cleaningComplete) := by
  intro s fid
  by_cases h : s.selectedFile.any (fun f => f.file_info.id = fid) = true
  · refine ⟨by simp [deleteFile, h], ?_, ?_, ?_⟩
    · intro f; simp [deleteFile, h, List.mem_filter]
    · intro _; simp [deleteFile, h]
    · intro hf; rw [h] at hf; cases hf
  · have h' : s.selectedFile.any (fun f => f.file_info.id = fid) = false := by
      revert h; cases s.selectedFile.any (fun f => f.file_info.id = fid) <;> simp
    refine ⟨by simp [deleteFile, h'], ?_, ?_, ?_⟩
    · intro f; simp [deleteFile, h', List.mem_filter]
    · intro hf; rw [h'] at hf; cases hf
    · intro _; simp [deleteFile, h']

/-- C6 (supporting evaluation): at file id "f1" and format "csv", the request
URL built by `downloadFile` is identical for the original-selecting and the
cleaned-selecting invocation; only the locally saved file name differs. -/
theorem downloadRequest_ignores_flag :
    downloadRequest "f1" "csv" true = downloadRequest "f1" "csv" false
    ∧ downloadName "csv" true = "original_data.csv"
    ∧ downloadName "csv" false = "cleaned_data.csv" :=
  ⟨rfl, rfl, rfl⟩

/-- C4: cleaning with `handle_missing = fill` replaces every missing cell in
every column with the literal fill value, so every per-column missing count
of the cleaned table is 0; on input `[{a: missing}]` with fill value "NA"
the output is `[{a: "NA"}]` and `missing_values["a"]` goes from 1 to 0. -/
theorem fill_eliminates_missing :
    (∀ (t : Table) (v : String), TableWF t →
        ∀ p ∈ (compute (clean t (fillOpts v))).missing_values, p.2 = 0)
    ∧ clean exFillTable (fillOpts "NA")
        = { cols := [{ name := "a", inferred_type := ColType.text }]
            rows := [[("a", Cell.str "NA")]] }
    ∧ (compute exFillTable).missing_values = [("a", 1)]
    ∧ (compute (clean exFillTable (fillOpts "NA"))).missing_values = [("a", 0)] := by
  refine ⟨?_, by decide, by decide, by decide⟩
  intro t v hwf p hp
  rw [clean_fillOpts] at hp
  simp only [compute, List.mem_map] at hp
  obtain ⟨c, hc, rfl⟩ := hp
  have hc' : c ∈ t.cols := hc
  rw [missingCount]
  rw [List.countP_eq_zero]
  intro r hr
  obtain ⟨r0, hr0, rfl⟩ := List.mem_map.mp hr
  have hkey : c.name ∈ r0.map (fun p => p.1) := by
    rw [hwf r0 hr0]
    exact List.mem_map_of_mem _ hc'
  obtain ⟨x, hx⟩ := lookup_some_of_mem_keys r0 c.name hkey
  simp [lookupCell, lookup_map_value, hx, fillCell_ne_missing]

/-- C1: the Clean operation returns the first-K-rows preview and the
statistics of the cleaned table, records the cleaned artifact, and leaves
every stored original unchanged; on the frontend, applying the clean
response writes only the cleaned slots and the completion flag, leaving the
original preview, the original statistics, the uploaded-files list and the
selection untouched. -/
theorem clean_preserves_original :
    (∀ (store : Store) (fid : String) (o : CleaningOptions) (sf : StoredFile),
        store.lookup fid = some sf →
        cleanEndpoint store fid o
          = some (storeUpdate store fid { sf with cleaned := some (clean sf.original o) },
              { preview_data := (clean sf.original o).rows.take previewK,
                statistics := compute (clean sf.original o) })
        ∧ ∀ g : String,
            ((storeUpdate store fid
                { sf with cleaned := some (clean sf.original o) }).lookup g).map
                (fun e => e.original)
              = (store.lookup g).map (fun e => e.original))
    ∧ (∀ (s : AppState) (resp : CleanResponse),
        (applyCleanResult s resp).originalData = s.originalData
        ∧ (applyCleanResult s resp).statistics = s.statistics
        ∧ (applyCleanResult s resp).uploadedFiles = s.uploadedFiles
        ∧ (applyCleanResult s resp).selectedFile = s.selectedFile
        ∧ (applyCleanResult s resp).cleanedData = some resp.preview_data
        ∧ (applyCleanResult s resp).cleanedStatistics = some resp.statistics)
    ∧ (cleanEndpoint exStore "f1" (fillOpts "NA")).map
        (fun r => (r.1.lookup "f1").map (fun e => e.original))
      = some (some exFillTable) := by
  refine ⟨?_, fun s resp => ⟨rfl, rfl, rfl, rfl, rfl, rfl⟩, by decide⟩
  intro store fid o sf h
  constructor
  · simp [cleanEndpoint, h]
  · intro g
    rw [lookup_storeUpdate]
    by_cases hg : g = fid
    · subst hg
      rw [if_pos rfl, h]
      simp
    · rw [if_neg hg]

/-- C2: on the column `[1, 2, 3, missing]` the statistics are min 1, max 3,
mean 2, and population standard deviation sqrt(2/3) (variance divides by N,
not N−1, over non-missing values); and a numeric column gets no
`numeric_stats` entry exactly when it has zero non-missing values (`none`,
never a sentinel value). -/
theorem numeric_stats_spec :
    (compute exStatsTable).numeric_stats
        = [("x", { min := 1, max := 3, mean := 2, variance := 2 / 3 })]
    ∧ Real.sqrt ((numStatOf (numVals exStatsTable "x")).variance : ℝ)
        = Real.sqrt (2 / 3)
    ∧ (∀ (t : Table) (c : Column), (colNames t).Nodup → c ∈ t.cols →
        isNumericType c.inferred_type = true →
        (((compute t).numeric_stats.lookup c.name = none)
          ↔ nonMissingCount t c.name = 0)) := by
  have hvals : numVals exStatsTable "x" = [1, 2, 3] := rfl
  have hstat : numStatOf (numVals exStatsTable "x")
      = { min := 1, max := 3, mean := 2, variance := 2 / 3 } := by
    rw [hvals]
    simp only [numStatOf, List.foldl, List.headD, List.sum_cons, List.sum_nil,
      List.map_cons, List.map_nil, List.length_cons, List.length_nil, NumStat.mk.injEq]
    norm_num
  refine ⟨?_, ?_, ?_⟩
  · have : (compute exStatsTable).numeric_stats
        = [("x", numStatOf (numVals exStatsTable "x"))] := rfl
    rw [this, hstat]
  · rw [hstat]
    norm_num
  · intro t c hnd hc hnum
    rw [compute]
    simp only
    rw [lookup_map_key]
    constructor
    · intro h
      have hfind := Option.map_eq_none'.mp h
      rw [List.find?_eq_none] at hfind
      by_contra hne
      have hpos : 0 < nonMissingCount t c.name := Nat.pos_of_ne_zero hne
      have hcf : c ∈ t.cols.filter
          (fun c => isNumericType c.inferred_type && decide (0 < nonMissingCount t c.name)) := by
        rw [List.mem_filter]
        exact ⟨hc, by simp [hnum, hpos]⟩
      exact hfind c hcf (by simp)
    · intro h
      rw [Option.map_eq_none', List.find?_eq_none]
      intro d hd hdn
      have hdn' : d.name = c.name := by simpa using hdn
      have hdmem : d ∈ t.cols := (List.mem_filter.mp hd).1
      have hdcond := (List.mem_filter.mp hd).2
      have hdc : d = c := List.inj_on_of_nodup_map hnd hdmem hc hdn'
      rw [hdc] at hdcond
      simp [h] at hdcond

theorem mem_step_names (acc : List Column) (t : Table) (n : String) :
    (n ∈ (acc ++ t.cols.filter
        (fun c => ¬ acc.any (fun d => d.name = c.name))).map (fun c => c.name))
      ↔ n ∈ acc.map (fun c => c.name) ∨ n ∈ colNames t := by
  simp only [List.map_append, List.mem_append, List.mem_map, List.mem_filter,
    List.any_eq_true, colNames, decide_eq_true_eq, not_exists, not_and]
  constructor
  · rintro (h | ⟨c, ⟨hc, _⟩, rfl⟩)
    · exact Or.inl h
    · exact Or.inr ⟨c, hc, rfl⟩
  · rintro (h | ⟨c, hc, rfl⟩)
    · exact Or.inl h
    · by_cases ha : ∃ d ∈ acc, d.name = c.name
      · obtain ⟨d, hd, hdn⟩ := ha
        exact Or.inl ⟨d, hd, hdn⟩
      · push_neg at ha
        exact Or.inr ⟨c, ⟨hc, by simpa using ha⟩, rfl⟩

theorem mem_foldl_union_names (ts : List Table) (acc : List Column) (n : String) :
    (n ∈ (ts.foldl
        (fun acc t => acc ++ t.cols.filter
          (fun c => ¬ acc.any (fun d => d.name = c.name))) acc).map (fun c => c.name))
      ↔ n ∈ acc.map (fun c => c.name) ∨ ∃ t ∈ ts, n ∈ colNames t := by
  induction ts generalizing acc with
  | nil => simp
  | cons t ts ih =>
    rw [List.foldl_cons, ih, mem_step_names]
    simp only [List.mem_cons]
    constructor
    · rintro ((h | h) | ⟨u, hu, hn⟩)
      · exact Or.inl h
      · exact Or.inr ⟨t, Or.inl rfl, h⟩
      · exact Or.inr ⟨u, Or.inr hu, hn⟩
    · rintro (h | ⟨u, (rfl | hu), hn⟩)
      · exact Or.inl (Or.inl h)
      · exact Or.inl (Or.inr hn)
      · exact Or.inr ⟨u, hu, hn⟩

theorem mem_unionCols_names (ts : List Table) (n : String) :
    n ∈ (unionCols ts).map (fun c => c.name) ↔ ∃ t ∈ ts, n ∈ colNames t := by
  rw [unionCols, mem_foldl_union_names]
  simp

theorem lookupCell_extendRecord (cols : List Column) (src : Table) (r : Record)
    (n : String) (h : n ∈ cols.map (fun c => c.name)) :
    lookupCell (extendRecord cols src r) n
      = if (colNames src).contains n then lookupCell r n else Cell.missing := by
  obtain ⟨d, hd, hdn⟩ := find?_of_mem_names cols n h
  rw [lookupCell, extendRecord, lookup_map_key, hd]
  simp [hdn]

theorem rows_length_flatMap (ts : List Table) (cols : List Column) :
    (ts.flatMap (fun t => t.rows.map (extendRecord cols t))).length
      = (ts.map (fun t => t.rows.length)).sum := by
  induction ts with
  | nil => rfl
  | cons t ts ih => simp [List.flatMap_cons, ih]

/-- C3: the merged table's column set is the union of the inputs' column
sets (first-seen order, shown concretely on the {A,B} + {B,C} example), its
rows are the concatenation of each input's rows in input-list order, each
extended so that a cell of a column the source table lacks is `missing`. -/
theorem merge_outer_union :
    (∀ (ts : List Table) (n : String),
        n ∈ (merge ts).cols.map (fun c => c.name) ↔ ∃ t ∈ ts, n ∈ colNames t)
    ∧ (∀ ts : List Table,
        (merge ts).rows = ts.flatMap (fun t => t.rows.map (extendRecord (unionCols ts) t)))
    ∧ (∀ ts : List Table,
        (merge ts).rows.length = (ts.map (fun t => t.rows.length)).sum)
    ∧ (∀ (ts : List Table) (t : Table), t ∈ ts → ∀ r ∈ t.rows, ∀ n : String,
        n ∈ (merge ts).cols.map (fun c => c.name) → n ∉ colNames t →
        lookupCell (extendRecord (merge ts).cols t r) n = Cell.missing)
    ∧ merge [exTableAB, exTableBC]
        = { cols := [{ name := "A", inferred_type := ColType.text },
                     { name := "B", inferred_type := ColType.text },
                     { name := "C", inferred_type := ColType.text }]
            rows := [[("A", Cell.str "a1"), ("B", Cell.str "b1"), ("C", Cell.missing)],
                     [("A", Cell.missing), ("B", Cell.str "b2"), ("C", Cell.str "c2")]] } := by
  refine ⟨fun ts n => mem_unionCols_names ts n, fun ts => rfl,
    fun ts => rows_length_flatMap ts (unionCols ts), ?_, by decide⟩
  intro ts t ht r hr n hn hmiss
  rw [lookupCell_extendRecord _ _ _ _ hn]
  rw [if_neg ?_]
  intro hc
  exact hmiss (by simpa using hc)

open List in
theorem dropWhile_rdropWhile_dropWhile (p : Char → Bool) (l : List Char) :
    dropWhile p (rdropWhile p (dropWhile p l)) = rdropWhile p (dropWhile p l) := by
  rw [dropWhile_eq_self_iff]
  intro hl
  obtain ⟨u, hu⟩ := rdropWhile_prefix p (dropWhile p l)
  have hly : 0 < (dropWhile p l).length := by
    rw [← hu, List.length_append]
    omega
  have e3 : (rdropWhile p (dropWhile p l))[0]? = (dropWhile p l)[0]? := by
    conv_rhs => rw [← hu]
    exact (List.getElem?_append_left hl).symm
  have hget : (rdropWhile p (dropWhile p l)).get ⟨0, hl⟩
      = (dropWhile p l).get ⟨0, hly⟩ := by
    have e1 : (rdropWhile p (dropWhile p l))[0]?
        = some ((rdropWhile p (dropWhile p l)).get ⟨0, hl⟩) := by
      rw [List.get_eq_getElem]
      exact List.getElem?_eq_getElem hl
    have e2 : (dropWhile p l)[0]? = some ((dropWhile p l).get ⟨0, hly⟩) := by
      rw [List.get_eq_getElem]
      exact List.getElem?_eq_getElem hly
    rw [e1, e2] at e3
    exact Option.some.inj e3
  rw [hget]
  exact dropWhile_get_zero_not p l hly

theorem trimChars_idem (l : List Char) : trimChars (trimChars l) = trimChars l := by
  rw [trimChars, trimChars, dropWhile_rdropWhile_dropWhile]
  exact List.rdropWhile_idempotent isWS (List.dropWhile isWS l)

theorem trimStr_idem (s : String) : trimStr (trimStr s) = trimStr s := by
  show String.mk (trimChars (trimChars s.data)) = String.mk (trimChars s.data)
  rw [trimChars_idem]

theorem trimCell_idem (c : Cell) : trimCell (trimCell c) = trimCell c := by
  cases c <;> simp [trimCell, trimStr_idem]

theorem trimRecord_idem (r : Record) : trimRecord (trimRecord r) = trimRecord r := by
  apply map_eq_self_of
  intro x hx
  obtain ⟨p, _, rfl⟩ := List.mem_map.mp hx
  show (p.1, trimCell (trimCell p.2)) = (p.1, trimCell p.2)
  rw [trimCell_idem]

theorem mem_of_mem_dedupRows : ∀ (l : List Record) (x : Record),
    x ∈ dedupRows l → x ∈ l := by
  intro l
  induction l using dedupRows.induct with
  | case1 =>
    intro x hx
    simp [dedupRows] at hx
  | case2 r rs ih =>
    intro x hx
    rw [dedupRows] at hx
    rcases List.mem_cons.mp hx with rfl | hx
    · exact List.mem_cons_self _ _
    · exact List.mem_cons_of_mem _ (List.mem_of_mem_filter (ih x hx))

theorem dedupRows_filter (q : Record → Bool) : ∀ l : List Record,
    dedupRows (l.filter q) = (dedupRows l).filter q := by
  intro l
  induction l using dedupRows.induct with
  | case1 => simp [dedupRows]
  | case2 r rs ih =>
    by_cases hq : q r
    · rw [List.filter_cons_of_pos hq, dedupRows, dedupRows, List.filter_cons_of_pos hq]
      congr 1
      rw [List.filter_filter] at ih ⊢
      rw [show (fun a : Record => decide (a ≠ r) && q a) = (fun a => q a && decide (a ≠ r))
        from funext (fun a => Bool.and_comm _ _)]
      exact ih
    · rw [List.filter_cons_of_neg hq, dedupRows, List.filter_cons_of_neg hq]
      have key : rs.filter q = (rs.filter (fun x => x ≠ r)).filter q := by
        rw [List.filter_filter]
        apply List.filter_congr
        intro a _
        cases hqa : q a
        · simp
        · have har : a ≠ r := fun he => hq (he ▸ hqa)
          simp [har]
      rw [key, ih]

theorem dedupRows_idem : ∀ l : List Record, dedupRows (dedupRows l) = dedupRows l := by
  intro l
  induction l using dedupRows.induct with
  | case1 => simp [dedupRows]
  | case2 r rs ih =>
    rw [dedupRows]
    rw [dedupRows]
    congr 1
    have hD : (dedupRows (rs.filter (fun x => x ≠ r))).filter (fun x => x ≠ r)
        = dedupRows (rs.filter (fun x => x ≠ r)) := by
      apply List.filter_eq_self.mpr
      intro x hx
      exact (List.mem_filter.mp (mem_of_mem_dedupRows _ x hx)).2
    rw [hD]
    exact ih

theorem trimTable_dedupTable_trimTable (t : Table) :
    trimTable (dedupTable (trimTable t)) = dedupTable (trimTable t) := by
  simp only [trimTable, dedupTable]
  congr 1
  apply map_eq_self_of
  intro r hr
  obtain ⟨r0, _, rfl⟩ := List.mem_map.mp (mem_of_mem_dedupRows _ r hr)
  exact trimRecord_idem r0

/-- C5: with only `trim_whitespace` and `remove_duplicates` enabled, the
cleaning pipeline is idempotent: cleaning an already-cleaned table is a
fixed point. -/
theorem trim_dedup_idempotent : ∀ t : Table,
    clean (clean t trimDedupOpts) trimDedupOpts = clean t trimDedupOpts := by
  intro t
  rw [clean_trimDedupOpts, clean_trimDedupOpts, trimTable_dedupTable_trimTable]
  simp only [dedupTable]
  congr 1
  exact dedupRows_idem _
